import Mathlib

/-!
Verification of the task execution engine of the `bld` repository
(package `pocket`), against its natural-language specification.

The repository contains several generations of the engine side by side.
Each generation is embedded in its own namespace:

* `PocketV2` — the `Task`/`RunContext`/`execution` generation of
  `funcdef.go` (dedup registry keyed by task name, skip rules, path
  filtering, typed options).
* `PocketV1` — the `Task`/`Deps`/`SerialDeps` generation of
  `src/unnamed/part_026` (per-task once, errgroup-based parallelism).
* `PocketV3` — the `Task`/`ArgDef` generation of `task.go`
  (`SetArgs` argument merging).
* `PocketFD` — the `FuncDef`/`Runnable` generation of `funcdef.go`
  (collect/execute phases, command/do/thunk leaves, task enumeration),
  together with the `TaskInfo` JSON export of `src/unnamed/part_000`
  and a model of Go `encoding/json` for that export shape.

Machine-level effects (printing, invoking a user action, starting a
subprocess) are modelled as events recorded in a trace; Go `error` values
are modelled as `Option Err` with `none` for `nil`.
-/

/-- Go `error` results: `none` models a `nil` error, `some msg` a non-nil one. -/
abbrev Err := String

namespace PocketV2

/-- Effects a `Task.Run` call performs: a line written to the output
(`fmt.Fprintf(rc.Out.Stdout, ...)`), or an invocation of the task's action. -/
inductive Event where
  | out (line : String)
  | action (name : String)
deriving DecidableEq

/-- Embedding of `execution` (funcdef.go): `done map[string]bool` and
`errors map[string]error`, with absent keys reading as `false` / `nil`. -/
structure Execution where
  done : String → Bool
  errors : String → Option Err

/-- Embedding of `execution.markDone`: set `done[name] = true` and record the
error only when it is non-nil (the Go code leaves `errors` untouched for `nil`). -/
def Execution.markDone (e : Execution) (name : String) (err : Option Err) : Execution :=
  { done := fun n => if n = name then true else e.done n
    errors :=
      match err with
      | none => e.errors
      | some msg => fun n => if n = name then some msg else e.errors n }

/-- Embedding of `execution.isDone`: report completion and the recorded error. -/
def Execution.isDone (e : Execution) (name : String) : Bool × Option Err :=
  if e.done name then (true, e.errors name) else (false, none)

/-- Embedding of `skipRule` (funcdef.go): empty `paths` means skip everywhere. -/
structure SkipRule where
  taskName : String
  paths : List String

/-- Embedding of `taskSetup` as used by `RunContext` in funcdef.go: per-task
resolved paths (`setup.paths`, a Go map whose absent keys read as the empty
list), per-task CLI arguments (`setup.args`, absent keys read as an empty
map), and the active skip rules. -/
structure TaskSetup where
  paths : String → List String
  args : String → (String → Option String)
  skipRules : List SkipRule

/-- Embedding of the parts of `RunContext` that `Task.Run` consults: the
execution state's working directory (`rc.state.cwd`) and the accumulated
`taskSetup`. Output is modelled by the event trace, and the dedup registry
(`rc.state.dedup`) is threaded explicitly through `Task.Run`. -/
structure RunContext where
  cwd : String
  setup : TaskSetup

/-- Embedding of `RunContext.isSkipped`: scan the skip rules for one naming
the task; a rule with no paths skips everywhere, otherwise the rule must
list the path. -/
def RunContext.isSkipped (rc : RunContext) (taskName path : String) : Bool :=
  rc.setup.skipRules.any fun rule =>
    rule.taskName == taskName && (rule.paths.isEmpty || rule.paths.contains path)

/-- Embedding of `RunContext.shouldSkipGlobally`. -/
def RunContext.shouldSkipGlobally (rc : RunContext) (taskName : String) : Bool :=
  rc.isSkipped taskName ""

/-- Embedding of `RunContext.resolveAndFilterPaths`: default to `[cwd]` when
the task has no path list, then split into live and skipped paths. -/
def RunContext.resolveAndFilterPaths (rc : RunContext) (taskName : String) :
    List String × List String :=
  let all := rc.setup.paths taskName
  let all := if all = [] then [rc.cwd] else all
  (all.filter fun p => ¬ rc.isSkipped taskName p,
   all.filter fun p => rc.isSkipped taskName p)

/-- Embedding of `RunContext.printTaskHeader`: the line written for a task
header, annotated with any skipped paths. -/
def printTaskHeader (taskName : String) (skippedPaths : List String) : String :=
  if skippedPaths ≠ [] then
    "=== " ++ taskName ++ " (skipped in: " ++ String.intercalate ", " skippedPaths ++ ")\n"
  else
    "=== " ++ taskName ++ "\n"

/-- Embedding of `Task` (funcdef.go). The action is modelled by the result it
returns when invoked on the live path list. `parse` stands for
`parseOptionsFromCLI(t.Options, args)` applied to the task's option schema.

Modelled from the spec: the OptionsBinder (`parseOptionsFromCLI`,
`inspectArgs`) is not under `src/`; per §4.2 it maps the task's declared
options schema and an argument map to a typed option value or a
`FlagUnknown`/`FlagValueBad` failure, which this field represents as a
function from the argument map to success or an error message. -/
structure Task where
  Name : String
  Usage : String
  parse : (String → Option String) → Except Err Unit
  Action : List String → Option Err
  Hidden : Bool
  Builtin : Bool

/-- Embedding of `Task.Run` (funcdef.go): consult the dedup registry, apply
global skip rules, resolve and filter paths, print the header, parse the
options, invoke the action, and record the result. Returns the updated
registry, the trace of output lines and action invocations, and the error. -/
def Task.Run (t : Task) (rc : RunContext) (st : Execution) :
    Execution × List Event × Option Err :=
  if st.done t.Name then
    (st, [], st.errors t.Name)
  else if rc.shouldSkipGlobally t.Name then
    (st.markDone t.Name none, [], none)
  else
    let pair := rc.resolveAndFilterPaths t.Name
    if pair.1 = [] then
      (st.markDone t.Name none, [Event.out ("=== " ++ t.Name ++ " (skipped)\n")], none)
    else
      let hdr := printTaskHeader t.Name pair.2
      match t.parse (rc.setup.args t.Name) with
      | Except.error e =>
          (st.markDone t.Name (some ("parse options: " ++ e)), [Event.out hdr], some e)
      | Except.ok _ =>
          let res := t.Action pair.1
          (st.markDone t.Name res, [Event.out hdr, Event.action t.Name], res)

/-- Result of `ctx.Err()` after cancellation (`context.Canceled`). -/
def ctxCanceledErr : Err := "context canceled"

/-- Embedding of the loop of `RunContext.ForEachPath` (funcdef.go): iterate
the paths, checking the context for cancellation before each iteration and
stopping at the first callback error. Cancellation is modelled by a
step-indexed predicate (`cancelled i` is what `ctx.Done()` reports at the
check preceding the path with index `i`), the callback by the result it
returns per path. Returns the indices of the paths the callback was invoked
on, and the iteration's result. -/
def forEachPathGo (cancelled : Nat → Bool) (f : String → Option Err) :
    Nat → List String → List Nat × Option Err
  | _, [] => ([], none)
  | i, p :: rest =>
      if cancelled i then
        ([], some ctxCanceledErr)
      else
        match f p with
        | some e => ([i], some e)
        | none =>
            let r := forEachPathGo cancelled f (i + 1) rest
            (i :: r.1, r.2)

/-- Embedding of `RunContext.ForEachPath` applied to a context's path list. -/
def ForEachPath (cancelled : Nat → Bool) (f : String → Option Err)
    (paths : List String) : List Nat × Option Err :=
  forEachPathGo cancelled f 0 paths

end PocketV2

namespace PocketV2

/-- The first-index form of the iterator lemma, generalized over the start
index so the induction goes through: if the first cancelled check is the
`k`-th one and the callback succeeds before it, iteration invokes the
callback exactly on the first `k` paths and returns the cancellation error. -/
theorem forEachPathGo_cancelled (cancelled : Nat → Bool) (f : String → Option Err) :
    ∀ (k : Nat) (paths : List String) (s : Nat),
      cancelled (s + k) = true →
      (∀ j, j < k → cancelled (s + j) = false) →
      k < paths.length →
      (∀ j p, j < k → paths.get? j = some p → f p = none) →
      forEachPathGo cancelled f s paths = (List.range' s k, some ctxCanceledErr)
  | 0, paths, s, hk, _, hlen, _ => by
      match paths, hlen with
      | p :: rest, _ =>
        simp only [Nat.add_zero] at hk
        simp [forEachPathGo, hk, List.range']
  | k + 1, paths, s, hk, hbefore, hlen, hok => by
      match paths, hlen with
      | p :: rest, hlen =>
        have h0 : cancelled s = false := by
          have := hbefore 0 (Nat.succ_pos k)
          simpa using this
        have hp : f p = none := hok 0 p (Nat.succ_pos k) rfl
        have ih := forEachPathGo_cancelled cancelled f k rest (s + 1)
          (by have : s + 1 + k = s + (k + 1) := by omega
              rw [this]; exact hk)
          (fun j hj => by
            have : s + 1 + j = s + (j + 1) := by omega
            rw [this]; exact hbefore (j + 1) (by omega))
          (by simpa using Nat.lt_of_succ_lt_succ hlen)
          (fun j q hj hq => hok (j + 1) q (by omega) (by simpa using hq))
        simp [forEachPathGo, h0, hp, ih, List.range']

end PocketV2

/-- C1: once a result for a task has been recorded in the execution's dedup
registry by a completed `Run` call (any completed `Task.Run` marks the task
done), every subsequent `Run` call for that task in the same execution
returns exactly the recorded result, performs no output, and does not invoke
the task's action again. -/
theorem c1_run_returns_recorded_result (t : PocketV2.Task)
    (rc rc' : PocketV2.RunContext) (st : PocketV2.Execution) :
    (PocketV2.Task.Run t rc st).1.done t.Name = true ∧
    (∀ st' : PocketV2.Execution, st'.done t.Name = true →
      PocketV2.Task.Run t rc' st' = (st', [], st'.errors t.Name)) := by
  constructor
  · by_cases h1 : st.done t.Name = true
    · simp [PocketV2.Task.Run, h1]
    · by_cases h2 : rc.shouldSkipGlobally t.Name = true
      · simp [PocketV2.Task.Run, h1, h2, PocketV2.Execution.markDone]
      · by_cases h3 : (rc.resolveAndFilterPaths t.Name).1 = []
        · simp [PocketV2.Task.Run, h1, h2, h3, PocketV2.Execution.markDone]
        · cases hp : t.parse (rc.setup.args t.Name) <;>
            simp [PocketV2.Task.Run, h1, h2, h3, hp, PocketV2.Execution.markDone]
  · intro st' h
    simp [PocketV2.Task.Run, h]

/-- C1 witness: a dedup registry that has recorded the failure `"boom"` for
task `"build"`; running the task again returns that failure, with no events. -/
theorem c1_witness :
    PocketV2.Task.Run
        ⟨"build", "u", fun _ => Except.ok (), fun _ => none, false, false⟩
        ⟨".", ⟨fun _ => [], fun _ _ => none, []⟩⟩
        ⟨fun n => n == "build", fun n => if n == "build" then some "boom" else none⟩
      = (⟨fun n => n == "build", fun n => if n == "build" then some "boom" else none⟩,
         [], some "boom") := by
  have h := (c1_run_returns_recorded_result
      ⟨"build", "u", fun _ => Except.ok (), fun _ => none, false, false⟩
      ⟨".", ⟨fun _ => [], fun _ _ => none, []⟩⟩
      ⟨".", ⟨fun _ => [], fun _ _ => none, []⟩⟩
      ⟨fun n => n == "build", fun n => if n == "build" then some "boom" else none⟩).2
      ⟨fun n => n == "build", fun n => if n == "build" then some "boom" else none⟩
      (by rfl)
  exact h

/-- C5 counterexample: task `"lint"` under a global skip rule. Its resolved
path list becomes empty after filtering (the global rule skips every path),
yet `Run` prints nothing at all — no `=== lint (skipped)` header — because
the global-skip branch returns before the path branch is reached. The claim
as stated therefore fails at this input (result and registry do match: the
task is recorded as successfully completed and the action is not invoked). -/
theorem c5_counterexample :
    (PocketV2.RunContext.resolveAndFilterPaths
        ⟨".", ⟨fun _ => [], fun _ _ => none, [⟨"lint", []⟩]⟩⟩ "lint").1 = [] ∧
    PocketV2.Task.Run
        ⟨"lint", "u", fun _ => Except.ok (), fun _ => some "ran", false, false⟩
        ⟨".", ⟨fun _ => [], fun _ _ => none, [⟨"lint", []⟩]⟩⟩
        ⟨fun _ => false, fun _ => none⟩
      = ((PocketV2.Execution.mk (fun _ => false) (fun _ => none)).markDone "lint" none,
         [], none) :=
  ⟨rfl, rfl⟩

/-- C5 (amended): for every task whose resolved path list becomes empty after
filtering by the active skip rules, provided the task has no recorded result
yet and no global skip rule names it, `Run` prints `=== <name> (skipped)`,
records the task as completed successfully in the dedup registry, returns
success, and never invokes the action. -/
theorem c5_all_paths_skipped (t : PocketV2.Task) (rc : PocketV2.RunContext)
    (st : PocketV2.Execution)
    (h1 : st.done t.Name = false)
    (h2 : rc.shouldSkipGlobally t.Name = false)
    (h3 : (rc.resolveAndFilterPaths t.Name).1 = []) :
    PocketV2.Task.Run t rc st =
      (st.markDone t.Name none,
       [PocketV2.Event.out ("=== " ++ t.Name ++ " (skipped)\n")], none) := by
  simp [PocketV2.Task.Run, h1, h2, h3]

/-- C5 witness: a path-specific skip rule that removes the only path of task
`"lint"`; `Run` emits the skipped header, commits success, and returns. -/
theorem c5_witness :
    PocketV2.Task.Run
        ⟨"lint", "u", fun _ => Except.ok (), fun _ => some "ran", false, false⟩
        ⟨".", ⟨fun _ => [], fun _ _ => none, [⟨"lint", ["."]⟩]⟩⟩
        ⟨fun _ => false, fun _ => none⟩
      = ((PocketV2.Execution.mk (fun _ => false) (fun _ => none)).markDone "lint" none,
         [PocketV2.Event.out ("=== " ++ "lint" ++ " (skipped)\n")], none) :=
  c5_all_paths_skipped
    ⟨"lint", "u", fun _ => Except.ok (), fun _ => some "ran", false, false⟩
    ⟨".", ⟨fun _ => [], fun _ _ => none, [⟨"lint", ["."]⟩]⟩⟩
    ⟨fun _ => false, fun _ => none⟩ rfl rfl rfl

/-- C6: the path iterator checks cancellation before each iteration: if the
context first reports cancellation at the check preceding path `k` (and the
callback succeeded on the earlier paths), the callback is invoked exactly on
paths `0..k-1` — not on path `k` or any later path — and `ForEachPath`
returns the context's cancellation error. -/
theorem c6_foreachpath_stops_on_cancellation (cancelled : Nat → Bool)
    (f : String → Option Err) (paths : List String) (k : Nat)
    (hk : cancelled k = true)
    (hbefore : ∀ j, j < k → cancelled j = false)
    (hlen : k < paths.length)
    (hok : ∀ j p, j < k → paths.get? j = some p → f p = none) :
    PocketV2.ForEachPath cancelled f paths = (List.range k, some PocketV2.ctxCanceledErr) := by
  have h := PocketV2.forEachPathGo_cancelled cancelled f k paths 0
    (by simpa using hk) (fun j hj => by simpa using hbefore j hj) hlen hok
  rw [PocketV2.ForEachPath, h, List.range_eq_range']

/-- C6 witness: three paths with cancellation first observed at the check
before the third; the callback runs on the first two paths only. -/
theorem c6_witness :
    PocketV2.ForEachPath (fun i => decide (2 ≤ i)) (fun _ => none) ["a", "b", "c"]
      = ([0, 1], some PocketV2.ctxCanceledErr) := by
  have h := c6_foreachpath_stops_on_cancellation (fun i => decide (2 ≤ i))
    (fun _ => none) ["a", "b", "c"] 2 (by decide) (by decide) (by decide)
    (fun _ _ _ _ => rfl)
  exact h.trans (by decide)

namespace PocketV1

/-- Embedding of `Task` (src/unnamed/part_026). The `once`/`err` pair is
modelled by the execution memo below; `Action` is `none` for a nil action,
otherwise the result the action returns when invoked. Task identity (the Go
pointer that `sync.Once` lives on) is represented by `Name`, relying on
invariant (I1) that task names are unique within an execution. -/
structure Task where
  Name : String
  Usage : String
  Action : Option (Option Err)
  Hidden : Bool

/-- Per-execution memo standing for each task's `sync.Once` and stored `err`:
`none` means the once has not fired, `some r` that it fired with result `r`. -/
abbrev Memo := String → Option (Option Err)

/-- Embedding of `Task.run` (src/unnamed/part_026): under the once, a nil
action stores a nil error without printing; otherwise the action is invoked
(the returned `Bool` records that) and its result stored. A later call
returns the stored result without invoking the action. -/
def Task.run (t : Task) (memo : Memo) : Memo × Bool × Option Err :=
  match memo t.Name with
  | some r => (memo, false, r)
  | none =>
      match t.Action with
      | none => (fun n => if n = t.Name then some none else memo n, false, none)
      | some res => (fun n => if n = t.Name then some res else memo n, true, res)

/-- Loop of `SerialDeps`, carrying the position of the next child. Returns
the memo, the trace of `run` calls made (child index paired with the result
that call returned), and the overall result. Nil entries in the task list
are skipped, as in the Go loop. -/
def serialGo (idx : Nat) (memo : Memo) :
    List (Option Task) → Memo × List (Nat × Option Err) × Option Err
  | [] => (memo, [], none)
  | none :: rest => serialGo (idx + 1) memo rest
  | some t :: rest =>
      let r := t.run memo
      match r.2.2 with
      | some e => (r.1, [(idx, some e)], some e)
      | none =>
          let rec2 := serialGo (idx + 1) r.1 rest
          (rec2.1, (idx, none) :: rec2.2.1, rec2.2.2)

/-- Embedding of `SerialDeps` (src/unnamed/part_026): run the children in
declared order, returning immediately with the first failing child's error. -/
def SerialDeps (memo : Memo) (tasks : List (Option Task)) :
    Memo × List (Nat × Option Err) × Option Err :=
  serialGo 0 memo tasks

end PocketV1

namespace PocketV1

/-- Index-shifted short-circuit lemma for the serial loop: a failing run
produces a trace whose last call is the failing child, all earlier calls
succeeded, and no child past the failing one is called. -/
theorem serialGo_failure :
    ∀ (tasks : List (Option Task)) (idx : Nat) (memo : Memo) (f : Err),
      (serialGo idx memo tasks).2.2 = some f →
      ∃ k t, tasks.get? k = some (some t) ∧
        (idx + k, some f) ∈ (serialGo idx memo tasks).2.1 ∧
        (∀ e ∈ (serialGo idx memo tasks).2.1, e.1 ≤ idx + k) ∧
        (∀ e ∈ (serialGo idx memo tasks).2.1, e.1 < idx + k → e.2 = none) ∧
        (∀ i t0, i < k → tasks.get? i = some (some t0) →
          (idx + i, none) ∈ (serialGo idx memo tasks).2.1)
  | [], idx, memo, f, h => by simp [serialGo] at h
  | none :: rest, idx, memo, f, h => by
      simp only [serialGo] at h ⊢
      obtain ⟨k, t, hget, hmem, hle, hnone, hprev⟩ := serialGo_failure rest (idx + 1) memo f h
      refine ⟨k + 1, t, by simpa using hget, ?_, ?_, ?_, ?_⟩
      · have : idx + (k + 1) = idx + 1 + k := by omega
        rw [this]; exact hmem
      · intro e he
        have := hle e he
        omega
      · intro e he hlt
        exact hnone e he (by omega)
      · intro i t0 hi hget0
        match i, hget0 with
        | Nat.succ j, hget0 =>
          have : idx + (j + 1) = idx + 1 + j := by omega
          rw [this]
          exact hprev j t0 (by omega) (by simpa using hget0)
  | some t :: rest, idx, memo, f, h => by
      cases hr : (t.run memo).2.2 with
      | some e =>
          refine ⟨0, t, rfl, ?_, ?_, ?_, ?_⟩ <;>
            simp_all [serialGo]
      | none =>
          simp only [serialGo, hr] at h ⊢
          obtain ⟨k, t', hget, hmem, hle, hnone, hprev⟩ :=
            serialGo_failure rest (idx + 1) (t.run memo).1 f h
          refine ⟨k + 1, t', by simpa using hget, ?_, ?_, ?_, ?_⟩
          · have : idx + (k + 1) = idx + 1 + k := by omega
            rw [this]
            exact List.mem_cons_of_mem _ hmem
          · intro e he
            rcases List.mem_cons.mp he with h1 | h1
            · subst h1; omega
            · have := hle e h1; omega
          · intro e he hlt
            rcases List.mem_cons.mp he with h1 | h1
            · subst h1; rfl
            · exact hnone e h1 (by omega)
          · intro i t0 hi hget0
            match i, hget0 with
            | 0, hget0 => exact List.mem_cons_self _ _
            | Nat.succ j, hget0 =>
              have : idx + (j + 1) = idx + 1 + j := by omega
              rw [this]
              exact List.mem_cons_of_mem _ (hprev j t0 (by omega) (by simpa using hget0))

end PocketV1

/-- C4: for children run serially by `SerialDeps`, a failure `f` of the
composition comes from some child `k` whose `run` returned `f`; every child
before `k` completed successfully (its `run` returned nil) before it, no
child after `k` was invoked, and an empty child list returns success. -/
theorem c4_serialdeps_short_circuit (memo : PocketV1.Memo)
    (tasks : List (Option PocketV1.Task)) (f : Err) :
    PocketV1.SerialDeps memo [] = (memo, [], none) ∧
    ((PocketV1.SerialDeps memo tasks).2.2 = some f →
      ∃ k t, tasks.get? k = some (some t) ∧
        (k, some f) ∈ (PocketV1.SerialDeps memo tasks).2.1 ∧
        (∀ e ∈ (PocketV1.SerialDeps memo tasks).2.1, e.1 ≤ k) ∧
        (∀ e ∈ (PocketV1.SerialDeps memo tasks).2.1, e.1 < k → e.2 = none) ∧
        (∀ i t0, i < k → tasks.get? i = some (some t0) →
          (i, none) ∈ (PocketV1.SerialDeps memo tasks).2.1)) := by
  constructor
  · rfl
  · intro h
    obtain ⟨k, t, hget, hmem, hle, hnone, hprev⟩ :=
      PocketV1.serialGo_failure tasks 0 memo f h
    exact ⟨k, t, hget, by simpa using hmem, fun e he => by simpa using hle e he,
      fun e he hlt => hnone e he (by simpa using hlt),
      fun i t0 hi hg => by simpa using hprev i t0 hi hg⟩

/-- C4 witness: children `a`, `b`, `c` where `b` fails with `"boom"`. The
trace records `a` succeeding then `b` failing, and `c` is never invoked. -/
theorem c4_witness :
    ∃ k t,
      [some (PocketV1.Task.mk "a" "u" (some none) false),
       some (PocketV1.Task.mk "b" "u" (some (some "boom")) false),
       some (PocketV1.Task.mk "c" "u" (some none) false)].get? k = some (some t) ∧
      (k, some "boom") ∈ (PocketV1.SerialDeps (fun _ => none)
        [some (PocketV1.Task.mk "a" "u" (some none) false),
         some (PocketV1.Task.mk "b" "u" (some (some "boom")) false),
         some (PocketV1.Task.mk "c" "u" (some none) false)]).2.1 ∧
      (∀ e ∈ (PocketV1.SerialDeps (fun _ => none)
        [some (PocketV1.Task.mk "a" "u" (some none) false),
         some (PocketV1.Task.mk "b" "u" (some (some "boom")) false),
         some (PocketV1.Task.mk "c" "u" (some none) false)]).2.1, e.1 ≤ k) ∧
      (∀ e ∈ (PocketV1.SerialDeps (fun _ => none)
        [some (PocketV1.Task.mk "a" "u" (some none) false),
         some (PocketV1.Task.mk "b" "u" (some (some "boom")) false),
         some (PocketV1.Task.mk "c" "u" (some none) false)]).2.1, e.1 < k → e.2 = none) ∧
      (∀ i t0, i < k →
        [some (PocketV1.Task.mk "a" "u" (some none) false),
         some (PocketV1.Task.mk "b" "u" (some (some "boom")) false),
         some (PocketV1.Task.mk "c" "u" (some none) false)].get? i = some (some t0) →
        (i, none) ∈ (PocketV1.SerialDeps (fun _ => none)
          [some (PocketV1.Task.mk "a" "u" (some none) false),
           some (PocketV1.Task.mk "b" "u" (some (some "boom")) false),
           some (PocketV1.Task.mk "c" "u" (some none) false)]).2.1) :=
  (c4_serialdeps_short_circuit (fun _ => none)
    [some (PocketV1.Task.mk "a" "u" (some none) false),
     some (PocketV1.Task.mk "b" "u" (some (some "boom")) false),
     some (PocketV1.Task.mk "c" "u" (some none) false)] "boom").2 (by decide)

namespace PocketV1

/-- State of an `errgroup.WithContext` group while `Deps` waits: which
children have terminated (in termination order), the first non-nil error a
child returned (`g.errOnce` records only the first), and whether the group's
shared context has had cancellation requested. -/
structure GroupState where
  terminated : List Nat
  firstErr : Option Err
  cancelled : Bool

/-- One child termination: the child is recorded as terminated; if it failed
and no failure was recorded yet, its error is recorded and cancellation of
the shared context is requested (errgroup cancels on the first error). -/
def gStep (results : Nat → Option Err) (s : GroupState) (i : Nat) : GroupState :=
  { terminated := s.terminated ++ [i]
    firstErr :=
      match s.firstErr with
      | some e => some e
      | none => results i
    cancelled := s.cancelled || (results i).isSome }

/-- Process a sequence of child terminations. -/
def gRun (results : Nat → Option Err) : GroupState → List Nat → GroupState
  | s, [] => s
  | s, i :: rest => gRun results (gStep results s i) rest

/-- Embedding of `Deps` (src/unnamed/part_026): each child runs concurrently
and its termination order is linearized into `schedule` (a permutation of
the child indices); `results i` is what child `i`'s `run` returns. `g.Wait`
returns after every termination, with the first recorded error.

Modelled from the spec and the `golang.org/x/sync/errgroup` contract, which
`Deps` delegates to: concurrency is represented by quantifying over all
termination orders. -/
def Deps (results : Nat → Option Err) (schedule : List Nat) :
    GroupState × Option Err :=
  let final := gRun results ⟨[], none, false⟩ schedule
  (final, final.firstErr)

/-- Result of the first failing child in termination order. -/
def firstFailure (results : Nat → Option Err) : List Nat → Option Err
  | [] => none
  | i :: rest =>
      match results i with
      | some e => some e
      | none => firstFailure results rest

/-- Children already terminated stay terminated; processing appends. -/
theorem gRun_terminated (results : Nat → Option Err) :
    ∀ (l : List Nat) (s : GroupState),
      (gRun results s l).terminated = s.terminated ++ l
  | [], s => by simp [gRun]
  | i :: rest, s => by
      simp [gRun, gRun_terminated results rest, gStep]

/-- The recorded error of the final state is the first failure in
termination order (or the error already recorded). -/
theorem gRun_firstErr (results : Nat → Option Err) :
    ∀ (l : List Nat) (s : GroupState),
      (gRun results s l).firstErr =
        match s.firstErr with
        | some e => some e
        | none => firstFailure results l
  | [], s => by cases hs : s.firstErr <;> simp [gRun, firstFailure, hs]
  | i :: rest, s => by
      cases hs : s.firstErr with
      | some e =>
          simp [gRun, gRun_firstErr results rest, gStep, hs]
      | none =>
          cases hr : results i with
          | some e => simp [gRun, gRun_firstErr results rest, gStep, hs, hr, firstFailure]
          | none => simp [gRun, gRun_firstErr results rest, gStep, hs, hr, firstFailure]

/-- Once requested, cancellation stays requested. -/
theorem gRun_cancelled_mono (results : Nat → Option Err) :
    ∀ (l : List Nat) (s : GroupState),
      s.cancelled = true → (gRun results s l).cancelled = true
  | [], _, h => h
  | i :: rest, s, h => by
      apply gRun_cancelled_mono results rest
      simp [gStep, h]

/-- Processing a concatenation processes the parts in order. -/
theorem gRun_append (results : Nat → Option Err) :
    ∀ (a b : List Nat) (s : GroupState),
      gRun results s (a ++ b) = gRun results (gRun results s a) b
  | [], _, _ => rfl
  | _ :: rest, b, s => gRun_append results rest b (gStep results s _)

end PocketV1

/-- C3: for children run in parallel by `Deps`, under every linearization of
the children's terminations: the combinator returns only after every child
has terminated (every index below `n` is in the final terminated set); it
returns the first error encountered in termination order; and from the first
child failure onward — in particular at every later sibling's termination —
cancellation has been requested for the group. -/
theorem c3_deps_parallel (results : Nat → Option Err) (n : Nat)
    (schedule : List Nat) (hperm : schedule.Perm (List.range n)) :
    (∀ i, i < n → i ∈ (PocketV1.Deps results schedule).1.terminated) ∧
    (PocketV1.Deps results schedule).2 = PocketV1.firstFailure results schedule ∧
    (∀ pre i post, schedule = pre ++ i :: post → (results i).isSome = true →
      ∀ mid j tl, post = mid ++ j :: tl →
        (PocketV1.gRun results ⟨[], none, false⟩ (pre ++ i :: mid)).cancelled = true) := by
  refine ⟨?_, ?_, ?_⟩
  · intro i hi
    have hmem : i ∈ schedule := hperm.mem_iff.mpr (List.mem_range.mpr hi)
    rw [PocketV1.Deps]
    rw [PocketV1.gRun_terminated]
    simpa using hmem
  · rw [PocketV1.Deps]
    rw [PocketV1.gRun_firstErr]
  · intro pre i post hsched hfail mid j tl hpost
    have hsplit : pre ++ i :: mid = pre ++ [i] ++ mid := by simp
    rw [hsplit, PocketV1.gRun_append]
    apply PocketV1.gRun_cancelled_mono
    rw [PocketV1.gRun_append]
    have : ∀ s : PocketV1.GroupState,
        (PocketV1.gRun results s [i]).cancelled = (s.cancelled || (results i).isSome) := by
      intro s; rfl
    rw [this, hfail]
    simp

/-- C3 witness: two children where child 1 fails, terminating first. The
composition reports child 1's error, and child 0 still terminated. -/
theorem c3_witness :
    0 ∈ (PocketV1.Deps (fun i => if i = 1 then some "boom" else none) [1, 0]).1.terminated ∧
    (PocketV1.Deps (fun i => if i = 1 then some "boom" else none) [1, 0]).2 = some "boom" := by
  have h := c3_deps_parallel (fun i => if i = 1 then some "boom" else none) 2 [1, 0]
    (by decide)
  exact ⟨h.1 0 (by decide), h.2.1.trans (by decide)⟩

namespace PocketV3

/-- Embedding of `ArgDef` (task.go): an argument a task accepts. -/
structure ArgDef where
  Name : String
  Usage : String
  Default : String
deriving DecidableEq

/-- The defaults loop of `Task.SetArgs` (task.go): iterate the declared
`ArgDef`s in order, writing each non-empty `Default` into the map, so a
later declaration with the same name overwrites an earlier one. The map is
modelled as a function from keys to optional values. -/
def applyDefaults (acc : String → Option String) :
    List ArgDef → (String → Option String)
  | [] => acc
  | a :: rest =>
      applyDefaults
        (fun k => if a.Default ≠ "" ∧ k = a.Name then some a.Default else acc k) rest

/-- Embedding of `Task.SetArgs` (task.go): build the stored argument map by
applying declared defaults first, then overriding with the provided
arguments (`maps.Copy`). `declared` is the task's `Args` field and
`provided` the call's argument map; the result is the task's stored `args`. -/
def SetArgs (declared : List ArgDef) (provided : String → Option String) :
    String → Option String :=
  fun k =>
    match provided k with
    | some v => some v
    | none => applyDefaults (fun _ => none) declared k

/-- Keys no declared default touches read through to the accumulator. -/
theorem applyDefaults_not_touched :
    ∀ (l : List ArgDef) (acc : String → Option String) (k : String),
      (∀ a ∈ l, a.Name = k → a.Default = "") →
      applyDefaults acc l k = acc k
  | [], _, _, _ => rfl
  | a :: rest, acc, k, h => by
      rw [applyDefaults, applyDefaults_not_touched rest _ k
        (fun b hb => h b (List.mem_cons_of_mem _ hb))]
      have : ¬(a.Default ≠ "" ∧ k = a.Name) := by
        intro ⟨h1, h2⟩
        exact h1 (h a (List.mem_cons_self _ _) h2.symm)
      simp [this]

/-- A declared non-empty default is stored, provided no later declaration
shares its name. -/
theorem applyDefaults_found :
    ∀ (l1 : List ArgDef) (a : ArgDef) (l2 : List ArgDef)
      (acc : String → Option String),
      a.Default ≠ "" → (∀ b ∈ l2, b.Name ≠ a.Name) →
      applyDefaults acc (l1 ++ a :: l2) a.Name = some a.Default
  | [], a, l2, acc, hdef, hlater => by
      rw [List.nil_append, applyDefaults,
        applyDefaults_not_touched l2 _ a.Name
          (fun b hb hbn => absurd hbn (hlater b hb))]
      simp [hdef]
  | c :: l1, a, l2, acc, hdef, hlater => by
      rw [List.cons_append, applyDefaults]
      exact applyDefaults_found l1 a l2 _ hdef hlater

end PocketV3

/-- C10 counterexample: a task declaring two `ArgDef`s with the same name
`"a"` and non-empty defaults `"1"` and `"2"`, with no provided arguments.
The first declaration has a non-empty default and its name is not a provided
key, yet the stored args map `"a"` to `"2"` (the later declaration), not to
its default `"1"`, so the claim as stated fails at this input. -/
theorem c10_counterexample :
    ∃ a ∈ [PocketV3.ArgDef.mk "a" "u" "1", PocketV3.ArgDef.mk "a" "u" "2"],
      a.Default ≠ "" ∧ (fun _ => none : String → Option String) a.Name = none ∧
      PocketV3.SetArgs [PocketV3.ArgDef.mk "a" "u" "1", PocketV3.ArgDef.mk "a" "u" "2"]
        (fun _ => none) a.Name ≠ some a.Default := by
  refine ⟨PocketV3.ArgDef.mk "a" "u" "1", by simp, by simp, rfl, ?_⟩
  intro h
  have : (some "2" : Option String) = some "1" := by
    calc (some "2" : Option String)
        = PocketV3.SetArgs [PocketV3.ArgDef.mk "a" "u" "1", PocketV3.ArgDef.mk "a" "u" "2"]
            (fun _ => none) "a" := by rfl
      _ = some "1" := h
  simp at this

/-- C10 (amended): after `SetArgs`, provided the declared `ArgDef`s have
pairwise distinct names: every declared argument with a non-empty default
whose name is not a provided key is stored with its default; every provided
key is stored with its provided value (overriding defaults); and declared
arguments with an empty default and no provided value are absent. -/
theorem c10_setargs_merges_defaults (declared : List PocketV3.ArgDef)
    (provided : String → Option String)
    (hnodup : (declared.map PocketV3.ArgDef.Name).Nodup) :
    (∀ a ∈ declared, a.Default ≠ "" → provided a.Name = none →
      PocketV3.SetArgs declared provided a.Name = some a.Default) ∧
    (∀ k v, provided k = some v → PocketV3.SetArgs declared provided k = some v) ∧
    (∀ a ∈ declared, a.Default = "" → provided a.Name = none →
      PocketV3.SetArgs declared provided a.Name = none) := by
  refine ⟨?_, ?_, ?_⟩
  · intro a ha hdef hprov
    obtain ⟨l1, l2, rfl⟩ := List.append_of_mem ha
    have hlater : ∀ b ∈ l2, b.Name ≠ a.Name := by
      intro b hb
      have := hnodup
      simp only [List.map_append, List.map_cons, List.nodup_append] at this
      have hnd : (a.Name :: l2.map PocketV3.ArgDef.Name).Nodup := this.2.1
      rw [List.nodup_cons] at hnd
      intro hEq
      exact hnd.1 (hEq ▸ List.mem_map_of_mem PocketV3.ArgDef.Name hb)
    rw [PocketV3.SetArgs]
    simp only [hprov]
    exact PocketV3.applyDefaults_found l1 a l2 _ hdef hlater
  · intro k v hk
    rw [PocketV3.SetArgs]
    simp [hk]
  · intro a ha hdef hprov
    have honly : ∀ b ∈ declared, b.Name = a.Name → b.Default = "" := by
      intro b hb hbn
      have hba : b = a := List.inj_on_of_nodup_map hnodup hb ha hbn
      rw [hba]; exact hdef
    rw [PocketV3.SetArgs]
    simp only [hprov]
    exact PocketV3.applyDefaults_not_touched declared _ a.Name honly

/-- C10 witness: a declaration with a default that is kept, a provided value
that overrides, and an empty default that stays absent. -/
theorem c10_witness :
    PocketV3.SetArgs
        [PocketV3.ArgDef.mk "env" "u" "staging", PocketV3.ArgDef.mk "flag" "u" ""]
        (fun k => if k = "dry" then some "yes" else none) "env" = some "staging" ∧
    PocketV3.SetArgs
        [PocketV3.ArgDef.mk "env" "u" "staging", PocketV3.ArgDef.mk "flag" "u" ""]
        (fun k => if k = "dry" then some "yes" else none) "dry" = some "yes" ∧
    PocketV3.SetArgs
        [PocketV3.ArgDef.mk "env" "u" "staging", PocketV3.ArgDef.mk "flag" "u" ""]
        (fun k => if k = "dry" then some "yes" else none) "flag" = none := by
  have h := c10_setargs_merges_defaults
    [PocketV3.ArgDef.mk "env" "u" "staging", PocketV3.ArgDef.mk "flag" "u" ""]
    (fun k => if k = "dry" then some "yes" else none) (by decide)
  exact ⟨h.1 (PocketV3.ArgDef.mk "env" "u" "staging") (by simp) (by decide) (by decide),
    h.2.1 "dry" "yes" (by decide),
    h.2.2 (PocketV3.ArgDef.mk "flag" "u" "") (by simp) rfl (by decide)⟩

namespace PocketFD

/-- Execution phase of the `FuncDef` generation (`modeCollect` / execute). -/
inductive Mode where
  | collect
  | execute
deriving DecidableEq

/-- Embedding of the parts of `execContext` the run methods consult: the
phase, and the skip-rule check `ec.shouldSkipTask` represented as a
predicate on task names (the skip-rule storage itself is not under `src/`;
the plan/dedup bookkeeping of collection has no user-visible effect and is
omitted from the trace). -/
structure ExecContext where
  mode : Mode
  skips : String → Bool

/-- User-visible effects of running a `Runnable` tree: a line written to the
output, an invocation of a plain wrapped function (`funcRunnable.fn`), a
started subprocess (`commandRunnable` / `commandWithArgsRunnable`), an
evaluation of a `RunWith` args thunk, or an invocation of a `Do` body. -/
inductive Event where
  | out (line : String)
  | plainCall
  | cmdStart (name : String) (args : List String)
  | thunkEval (name : String)
  | doCall
deriving DecidableEq

/-- Embedding of the `Runnable` tree (funcdef.go): `funcR` is `funcRunnable`
(a plain `func(context.Context) error` wrapped by `toRunnable`, modelled by
the result it returns), `command` is `Run`, `runWith` is `RunWith` (the
thunk modelled by the argument list it returns), `doR` is `Do`, and
`funcDef` is a `FuncDef` with its body (options omitted: they do not affect
the traced effects). `serial`/`parallel` are the composition nodes.

Modelled from the spec: the `serial`/`parallel` run and enumeration methods
are not under `src/`; per §4.4 Serial runs children in declared order
stopping at the first failure, Parallel runs all children (its interleaving
is linearized here in declaration order, which the collect-phase and
enumeration claims do not depend on). -/
inductive Runnable where
  | funcR (res : Option Err)
  | command (name : String) (args : List String)
  | runWith (name : String) (args : List String)
  | doR (res : Option Err)
  | funcDef (name usage : String) (hidden : Bool) (body : Runnable)
  | serial (children : List Runnable)
  | parallel (children : List Runnable)

mutual

/-- Embedding of the `run` methods (funcdef.go): `funcRunnable.run` invokes
the wrapped function with no phase check; `commandRunnable.run`,
`commandWithArgsRunnable.run` and `doRunnable.run` are no-ops in collect
phase; `FuncDef.run` registers and recurses into its body in collect phase,
and in execute phase applies skip rules, prints the task header unless the
definition is hidden, and runs the body. `env` gives each started
subprocess's result. -/
def Runnable.run (env : String → List String → Option Err) (ec : ExecContext) :
    Runnable → List Event × Option Err
  | .funcR res => ([Event.plainCall], res)
  | .command n a =>
      match ec.mode with
      | .collect => ([], none)
      | .execute => ([Event.cmdStart n a], env n a)
  | .runWith n a =>
      match ec.mode with
      | .collect => ([], none)
      | .execute => ([Event.thunkEval n, Event.cmdStart n a], env n a)
  | .doR res =>
      match ec.mode with
      | .collect => ([], none)
      | .execute => ([Event.doCall], res)
  | .funcDef name _usage hidden body =>
      match ec.mode with
      | .collect => Runnable.run env ec body
      | .execute =>
          if ec.skips name then ([], none)
          else
            let hdr : List Event :=
              if hidden then [] else [Event.out ("=== " ++ name ++ "\n")]
            let r := Runnable.run env ec body
            (hdr ++ r.1, r.2)
  | .serial cs => runSerial env ec cs
  | .parallel cs => runParallel env ec cs

/-- Serial composition: children in declared order, stop at first failure. -/
def runSerial (env : String → List String → Option Err) (ec : ExecContext) :
    List Runnable → List Event × Option Err
  | [] => ([], none)
  | c :: rest =>
      let r := Runnable.run env ec c
      match r.2 with
      | some e => (r.1, some e)
      | none =>
          let r2 := runSerial env ec rest
          (r.1 ++ r2.1, r2.2)

/-- Parallel composition: all children run; effects linearized in declared
order; the first error in that order is returned. -/
def runParallel (env : String → List String → Option Err) (ec : ExecContext) :
    List Runnable → List Event × Option Err
  | [] => ([], none)
  | c :: rest =>
      let r := Runnable.run env ec c
      let r2 := runParallel env ec rest
      (r.1 ++ r2.1,
       match r.2 with
       | some e => some e
       | none => r2.2)

end

/-- The name/usage/hidden triple of a `FuncDef`, as read by `CollectTasks`
from the `*FuncDef` values that `funcs` returns. -/
structure FuncInfo where
  name : String
  usage : String
  hidden : Bool
deriving DecidableEq

mutual

/-- Embedding of the `funcs` methods (funcdef.go): leaves contribute
nothing; a `FuncDef` contributes itself only when it is not hidden, then its
body's definitions; compositions contribute their children's definitions. -/
def Runnable.funcs : Runnable → List FuncInfo
  | .funcR _ => []
  | .command _ _ => []
  | .runWith _ _ => []
  | .doR _ => []
  | .funcDef name usage hidden body =>
      (if hidden then [] else [FuncInfo.mk name usage hidden]) ++ Runnable.funcs body
  | .serial cs => funcsList cs
  | .parallel cs => funcsList cs

/-- Enumeration over a composition's children. -/
def funcsList : List Runnable → List FuncInfo
  | [] => []
  | c :: cs => Runnable.funcs c ++ funcsList cs

end

/-- Embedding of `TaskInfo` (src/unnamed/part_000): the public export record. -/
structure TaskInfo where
  name : String
  usage : String
  paths : List String
  hidden : Bool
deriving DecidableEq

/-- Embedding of `CollectTasks` (src/unnamed/part_000): walk the tree's
`funcs` and pair each with its resolved paths, defaulting to `["."]`.

`pm` stands for the result of `collectPathMappings(r)` followed by
`Resolve()`, a map from task name to resolved paths. Modelled from the spec:
`collectPathMappings` is not under `src/`; per §4.5 the paths of an entry
come from resolving any enclosing path-scope specs. -/
def CollectTasks (pm : String → Option (List String)) (r : Runnable) : List TaskInfo :=
  r.funcs.map fun f =>
    { name := f.name
      usage := f.usage
      hidden := f.hidden
      paths :=
        match pm f.name with
        | some ps => ps
        | none => ["."] }

end PocketFD

/-- C2: in collect phase the Command, RunWith and Do leaves are no-ops (no
subprocess, no thunk evaluation, no Do body) — but the claim fails on the
case it explicitly includes: a `FuncDef` whose body is a plain
`func(context.Context) error` wrapped by `toRunnable`. `funcRunnable.run`
has no collect-phase guard, so running that tree in collect phase invokes
the wrapped function (the `plainCall` event below), contradicting the code's
own comment that plain functions are not called during collection. -/
theorem c2_collect_invokes_plain_func :
    (∀ (env : String → List String → Option Err) (sk : String → Bool)
        (n : String) (a : List String),
      PocketFD.Runnable.run env ⟨PocketFD.Mode.collect, sk⟩ (.command n a) = ([], none) ∧
      PocketFD.Runnable.run env ⟨PocketFD.Mode.collect, sk⟩ (.runWith n a) = ([], none)) ∧
    (∀ (env : String → List String → Option Err) (sk : String → Bool) (res : Option Err),
      PocketFD.Runnable.run env ⟨PocketFD.Mode.collect, sk⟩ (.doR res) = ([], none)) ∧
    PocketFD.Runnable.run (fun _ _ => none) ⟨PocketFD.Mode.collect, fun _ => false⟩
        (.funcDef "test" "usage" false (.funcR none))
      = ([PocketFD.Event.plainCall], none) :=
  ⟨fun _ _ _ _ => ⟨rfl, rfl⟩, fun _ _ _ => rfl, rfl⟩

/-- C8: the task export misses hidden tasks. `FuncDef.funcs` includes a
definition only when it is not hidden, so `CollectTasks` on a hidden
definition produces no entry at all (rather than an entry with the hidden
flag set), for every path mapping; shown here at a concrete hidden tree. -/
theorem c8_collecttasks_excludes_hidden :
    PocketFD.Runnable.funcs
        (.funcDef "install:linter" "install linter" true (.command "x" [])) = [] ∧
    PocketFD.CollectTasks (fun _ => none)
        (.funcDef "install:linter" "install linter" true (.command "x" [])) = [] :=
  ⟨rfl, rfl⟩

/-- C7 counterexample: a hidden `FuncDef` executed in execute phase. Its
`Do` body is invoked (the task is executed) but no header line is written,
because `FuncDef.run` prints the header only for non-hidden definitions; the
claim as stated (every executed task, hidden or visible, prints `=== <name>`
first) fails at this input. -/
theorem c7_counterexample :
    PocketFD.Runnable.run (fun _ _ => none) ⟨PocketFD.Mode.execute, fun _ => false⟩
        (.funcDef "hidden-task" "usage" true (.doR none))
      = ([PocketFD.Event.doCall], none) :=
  rfl

/-- C7 (amended): every executed non-hidden `FuncDef` prints `=== <name>`
before its body runs; a hidden `FuncDef` executes its body with no header;
and `Task.Run` prints the header (optionally annotated with skipped paths)
before the action whenever the action is invoked, hidden or visible. -/
theorem c7_header_before_execution :
    (∀ (env : String → List String → Option Err) (sk : String → Bool)
        (name usage : String) (body : PocketFD.Runnable),
      sk name = false →
      PocketFD.Runnable.run env ⟨PocketFD.Mode.execute, sk⟩
          (.funcDef name usage false body)
        = (PocketFD.Event.out ("=== " ++ name ++ "\n") ::
            (PocketFD.Runnable.run env ⟨PocketFD.Mode.execute, sk⟩ body).1,
           (PocketFD.Runnable.run env ⟨PocketFD.Mode.execute, sk⟩ body).2)) ∧
    (∀ (env : String → List String → Option Err) (sk : String → Bool)
        (name usage : String) (body : PocketFD.Runnable),
      sk name = false →
      PocketFD.Runnable.run env ⟨PocketFD.Mode.execute, sk⟩
          (.funcDef name usage true body)
        = PocketFD.Runnable.run env ⟨PocketFD.Mode.execute, sk⟩ body) ∧
    (∀ (t : PocketV2.Task) (rc : PocketV2.RunContext) (st : PocketV2.Execution),
      PocketV2.Event.action t.Name ∈ (PocketV2.Task.Run t rc st).2.1 →
      (PocketV2.Task.Run t rc st).2.1 =
        [PocketV2.Event.out (PocketV2.printTaskHeader t.Name
            (rc.resolveAndFilterPaths t.Name).2),
         PocketV2.Event.action t.Name]) := by
  refine ⟨?_, ?_, ?_⟩
  · intro env sk name usage body hsk
    simp [PocketFD.Runnable.run, hsk]
  · intro env sk name usage body hsk
    simp [PocketFD.Runnable.run, hsk]
  · intro t rc st hmem
    by_cases h1 : st.done t.Name = true
    · simp [PocketV2.Task.Run, h1] at hmem
    · by_cases h2 : rc.shouldSkipGlobally t.Name = true
      · simp [PocketV2.Task.Run, h1, h2] at hmem
      · by_cases h3 : (rc.resolveAndFilterPaths t.Name).1 = []
        · simp [PocketV2.Task.Run, h1, h2, h3] at hmem
        · cases hp : t.parse (rc.setup.args t.Name) with
          | error e => simp [PocketV2.Task.Run, h1, h2, h3, hp] at hmem
          | ok u => simp [PocketV2.Task.Run, h1, h2, h3, hp, PocketV2.printTaskHeader]

/-- C7 witness: a visible `FuncDef` prints its header before the `Do` body,
and a concrete `Task.Run` invocation places the header before the action. -/
theorem c7_witness :
    PocketFD.Runnable.run (fun _ _ => none) ⟨PocketFD.Mode.execute, fun _ => false⟩
        (.funcDef "fmt" "u" false (.doR none))
      = (PocketFD.Event.out ("=== " ++ "fmt" ++ "\n") ::
          [PocketFD.Event.doCall], none) ∧
    (PocketV2.Task.Run
        ⟨"fmt", "u", fun _ => Except.ok (), fun _ => none, false, false⟩
        ⟨".", ⟨fun _ => [], fun _ _ => none, []⟩⟩
        ⟨fun _ => false, fun _ => none⟩).2.1 =
      [PocketV2.Event.out (PocketV2.printTaskHeader "fmt"
          ((PocketV2.RunContext.mk "." ⟨fun _ => [], fun _ _ => none, []⟩).resolveAndFilterPaths
            "fmt").2),
       PocketV2.Event.action "fmt"] := by
  constructor
  · exact c7_header_before_execution.1 (fun _ _ => none) (fun _ => false) "fmt" "u"
      (.doR none) rfl
  · exact c7_header_before_execution.2.2
      ⟨"fmt", "u", fun _ => Except.ok (), fun _ => none, false, false⟩
      ⟨".", ⟨fun _ => [], fun _ _ => none, []⟩⟩
      ⟨fun _ => false, fun _ => none⟩ (by decide)

namespace GoJson

/-- Opening brace character (written numerically throughout). -/
def lbraceC : Char := Char.ofNat 123

/-- Closing brace character. -/
def rbraceC : Char := Char.ofNat 125

/-- JSON values as produced and consumed by Go `encoding/json` for the
export shape: strings, booleans, arrays, objects, and `null` (numbers do
not occur in `TaskInfo`). Bytes are modelled as Unicode scalar values; the
replacement of invalid UTF-8 performed by the Go encoder is below this
abstraction. -/
inductive Json where
  | null
  | bool (b : Bool)
  | str (s : String)
  | arr (items : List Json)
  | obj (fields : List (String × Json))

/-- A lowercase hexadecimal digit, as Go `encoding/json` emits in `\u` escapes. -/
def hexDigitChar (n : Nat) : Char :=
  if n < 10 then Char.ofNat (48 + n) else Char.ofNat (97 + (n - 10))

/-- A six-character backslash-u escape for code point `n` (below 0x10000). -/
def uEscape (n : Nat) : List Char :=
  ['\\', 'u', hexDigitChar (n / 4096 % 16), hexDigitChar (n / 256 % 16),
   hexDigitChar (n / 16 % 16), hexDigitChar (n % 16)]

/-- Go `encoding/json` string escaping (with the default HTML escaping of
`Marshal`): quote and backslash get two-character escapes, newline, carriage
return and tab their short escapes, other control characters a `\u00xx`
escape, the HTML-sensitive `<`, `>`, `&` and the line separators U+2028 and
U+2029 their `\u` escapes; every other character is emitted as itself. -/
def escChar (c : Char) : List Char :=
  if c = '"' then ['\\', '"']
  else if c = '\\' then ['\\', '\\']
  else if c = '\n' then ['\\', 'n']
  else if c = '\r' then ['\\', 'r']
  else if c = '\t' then ['\\', 't']
  else if c.toNat < 32 then uEscape c.toNat
  else if c = '<' ∨ c = '>' ∨ c = '&' then uEscape c.toNat
  else if c.toNat = 8232 ∨ c.toNat = 8233 then uEscape c.toNat
  else [c]

/-- Escape a character sequence. -/
def escList : List Char → List Char
  | [] => []
  | c :: cs => escChar c ++ escList cs

/-- The line break plus indentation `MarshalIndent` inserts: a newline and
`n` spaces (`MarshalIndent(v, "", "  ")` indents two spaces per level). -/
def nlInd (n : Nat) : List Char := '\n' :: List.replicate n ' '

mutual

/-- Rendering of a JSON value exactly as `json.MarshalIndent(v, "", "  ")`
lays it out at nesting depth `d`: empty arrays and objects are `[]` and
braces with nothing between, non-empty ones put every element on its own
line indented one level deeper, and object members separate key and value
with a colon and a space. -/
def renderVal (d : Nat) (j : Json) : List Char :=
  match j with
  | .null => "null".data
  | .bool true => "true".data
  | .bool false => "false".data
  | .str s => '"' :: (escList s.data ++ ['"'])
  | .arr [] => ['[', ']']
  | .arr (e :: es) =>
      '[' :: (renderElems (d + 1) e es ++ (nlInd (2 * d) ++ [']']))
  | .obj [] => [lbraceC, rbraceC]
  | .obj (f :: fs) =>
      lbraceC :: (renderFields (d + 1) f fs ++ (nlInd (2 * d) ++ [rbraceC]))
termination_by sizeOf j
decreasing_by
  all_goals simp_wf
  all_goals omega

/-- The elements of a non-empty array, each on its own indented line. -/
def renderElems (d : Nat) (e : Json) (es : List Json) : List Char :=
  nlInd (2 * d) ++ (renderVal d e ++ renderSep d es)
termination_by sizeOf e + sizeOf es + 1
decreasing_by
  all_goals simp_wf
  all_goals omega

/-- Remaining array elements, each preceded by a comma and line break. -/
def renderSep (d : Nat) (es0 : List Json) : List Char :=
  match es0 with
  | [] => []
  | e :: es => ',' :: (nlInd (2 * d) ++ (renderVal d e ++ renderSep d es))
termination_by sizeOf es0
decreasing_by
  all_goals simp_wf
  all_goals omega

/-- The members of a non-empty object, each on its own indented line. -/
def renderFields (d : Nat) (f : String × Json) (fs : List (String × Json)) : List Char :=
  match f with
  | (k, v) =>
      nlInd (2 * d) ++
        ('"' :: (escList k.data ++ ('"' :: (':' :: (' ' ::
          (renderVal d v ++ renderFieldsSep d fs))))))
termination_by sizeOf f + sizeOf fs + 1
decreasing_by
  all_goals simp_wf
  all_goals omega

/-- Remaining object members, each preceded by a comma and line break. -/
def renderFieldsSep (d : Nat) (fs0 : List (String × Json)) : List Char :=
  match fs0 with
  | [] => []
  | (k, v) :: fs =>
      ',' :: (nlInd (2 * d) ++
        ('"' :: (escList k.data ++ ('"' :: (':' :: (' ' ::
          (renderVal d v ++ renderFieldsSep d fs)))))))
termination_by sizeOf fs0
decreasing_by
  all_goals simp_wf
  all_goals omega

end

/-- The whitespace characters `encoding/json` skips between tokens. -/
def isWsChar (c : Char) : Bool :=
  c = ' ' || c = '\t' || c = '\n' || c = '\r'

/-- Skip inter-token whitespace. -/
def skipWs : List Char → List Char
  | [] => []
  | c :: cs => if isWsChar c then skipWs cs else c :: cs

/-- Value of one hexadecimal digit, accepting both cases as Go's `getu4` does. -/
def hexVal (c : Char) : Option Nat :=
  if 48 ≤ c.toNat ∧ c.toNat ≤ 57 then some (c.toNat - 48)
  else if 97 ≤ c.toNat ∧ c.toNat ≤ 102 then some (c.toNat - 97 + 10)
  else if 65 ≤ c.toNat ∧ c.toNat ≤ 70 then some (c.toNat - 65 + 10)
  else none

/-- Short escapes a JSON string may contain besides `\u`. -/
def unescChar (e : Char) : Option Char :=
  if e = 'n' then some '\n'
  else if e = 't' then some '\t'
  else if e = 'r' then some '\r'
  else if e = '"' ∨ e = '\\' ∨ e = '/' then some e
  else if e = 'b' then some (Char.ofNat 8)
  else if e = 'f' then some (Char.ofNat 12)
  else none

/-- Read a JSON string body after the opening quote, unescaping as
`encoding/json` does, accumulating in reverse. Surrogate-pair decoding of
adjacent `\u` escapes is omitted: the escapes the encoder emits are all
below the surrogate range. Raw control characters are rejected. -/
def readStr : List Char → List Char → Option (List Char × List Char)
  | acc, '"' :: rest => some (acc.reverse, rest)
  | acc, '\\' :: 'u' :: a :: b :: c :: d :: rest =>
      (match hexVal a, hexVal b, hexVal c, hexVal d with
       | some va, some vb, some vc, some vd =>
           readStr (Char.ofNat (((va * 16 + vb) * 16 + vc) * 16 + vd) :: acc) rest
       | _, _, _, _ => none)
  | acc, '\\' :: e :: rest =>
      (match unescChar e with
       | some ch => readStr (ch :: acc) rest
       | none => none)
  | acc, c :: rest =>
      if c.toNat < 32 then none else readStr (c :: acc) rest
  | _, [] => none

mutual

/-- A recursive-descent parser for the JSON grammar the export uses
(strings, booleans, arrays, objects, `null`), as `json.Unmarshal` reads it:
whitespace-insensitive between tokens. `fuel` bounds the recursion depth so
the definition is total; the entry point supplies more fuel than any input
can consume. -/
def parseVal (fuel : Nat) (cs : List Char) : Option (Json × List Char) :=
  match fuel with
  | 0 => none
  | fuel + 1 =>
    match skipWs cs with
    | 'n' :: 'u' :: 'l' :: 'l' :: r => some (.null, r)
    | 't' :: 'r' :: 'u' :: 'e' :: r => some (.bool true, r)
    | 'f' :: 'a' :: 'l' :: 's' :: 'e' :: r => some (.bool false, r)
    | '"' :: r =>
        (match readStr [] r with
         | some (s, r1) => some (.str (String.mk s), r1)
         | none => none)
    | '[' :: r =>
        (match skipWs r with
         | [] => none
         | d :: r1 =>
             if d = ']' then some (.arr [], r1)
             else
               match parseItems fuel (d :: r1) with
               | some (es, r2) => some (.arr es, r2)
               | none => none)
    | c :: r =>
        if c = lbraceC then
          match skipWs r with
          | [] => none
          | d :: r1 =>
              if d = rbraceC then some (.obj [], r1)
              else
                match parseFields fuel (d :: r1) with
                | some (fs, r2) => some (.obj fs, r2)
                | none => none
        else none
    | [] => none

/-- Parse the elements of a non-empty array up to its closing bracket. -/
def parseItems (fuel : Nat) (cs : List Char) : Option (List Json × List Char) :=
  match fuel with
  | 0 => none
  | fuel + 1 =>
    match parseVal fuel cs with
    | none => none
    | some (v, r) =>
        match skipWs r with
        | ',' :: r1 =>
            (match parseItems fuel r1 with
             | some (vs, r2) => some (v :: vs, r2)
             | none => none)
        | ']' :: r1 => some ([v], r1)
        | _ => none

/-- Parse the members of a non-empty object up to its closing brace. -/
def parseFields (fuel : Nat) (cs : List Char) :
    Option (List (String × Json) × List Char) :=
  match fuel with
  | 0 => none
  | fuel + 1 =>
    match skipWs cs with
    | '"' :: r =>
        (match readStr [] r with
         | none => none
         | some (k, r1) =>
             match skipWs r1 with
             | ':' :: r2 =>
                 (match parseVal fuel r2 with
                  | none => none
                  | some (v, r3) =>
                      match skipWs r3 with
                      | ',' :: r4 =>
                          (match parseFields fuel r4 with
                           | some (fs, r5) => some ((String.mk k, v) :: fs, r5)
                           | none => none)
                      | d :: r4 =>
                          if d = rbraceC then some ([(String.mk k, v)], r4) else none
                      | [] => none)
             | _ => none)
    | _ => none

end

end GoJson

namespace PocketFD

/-- The JSON value `encoding/json` marshals one `TaskInfo` to, following the
struct tags of src/unnamed/part_000: `name` and `usage` always, `paths` and
`hidden` only when non-empty / true (`omitempty`). -/
def encodeInfo (ti : TaskInfo) : GoJson.Json :=
  GoJson.Json.obj
    ([("name", GoJson.Json.str ti.name), ("usage", GoJson.Json.str ti.usage)] ++
     (if ti.paths = [] then []
      else [("paths", GoJson.Json.arr (ti.paths.map GoJson.Json.str))]) ++
     (if ti.hidden then [("hidden", GoJson.Json.bool true)] else []))

/-- The JSON value for a `TaskInfo` list. -/
def encodeInfos (l : List TaskInfo) : GoJson.Json :=
  GoJson.Json.arr (l.map encodeInfo)

/-- Embedding of `ExportJSON` (src/unnamed/part_000): collect the tasks and
marshal them with `json.MarshalIndent(tasks, "", "  ")`; the byte output is
modelled as a character sequence. -/
def ExportJSON (pm : String → Option (List String)) (r : Runnable) : List Char :=
  GoJson.renderVal 0 (encodeInfos (CollectTasks pm r))

/-- Decode a JSON array of strings, failing on any non-string element, as
`json.Unmarshal` does for a `[]string` target. -/
def strList : List GoJson.Json → Option (List String)
  | [] => some []
  | GoJson.Json.str s :: rest => (strList rest).map fun l => s :: l
  | _ :: _ => none

/-- The zero `TaskInfo` that `json.Unmarshal` starts from. -/
def emptyInfo : TaskInfo := ⟨"", "", [], false⟩

/-- Process an object's members into a `TaskInfo` as `json.Unmarshal` does:
fields are applied in order (a later duplicate key overwrites), unknown keys
are ignored, a `null` leaves the field untouched, and a type mismatch is an
error. -/
def decodeFields : TaskInfo → List (String × GoJson.Json) → Option TaskInfo
  | acc, [] => some acc
  | acc, (k, v) :: rest =>
      if k = "name" then
        match v with
        | GoJson.Json.str s => decodeFields { acc with name := s } rest
        | _ => none
      else if k = "usage" then
        match v with
        | GoJson.Json.str s => decodeFields { acc with usage := s } rest
        | _ => none
      else if k = "paths" then
        match v with
        | GoJson.Json.arr items =>
            (match strList items with
             | some ps => decodeFields { acc with paths := ps } rest
             | none => none)
        | GoJson.Json.null => decodeFields acc rest
        | _ => none
      else if k = "hidden" then
        match v with
        | GoJson.Json.bool b => decodeFields { acc with hidden := b } rest
        | _ => none
      else decodeFields acc rest

/-- Decode one `TaskInfo` from a JSON value (an object is required). -/
def decodeInfo : GoJson.Json → Option TaskInfo
  | GoJson.Json.obj fields => decodeFields emptyInfo fields
  | _ => none

/-- Decode each element of a JSON array into a `TaskInfo`. -/
def infoList : List GoJson.Json → Option (List TaskInfo)
  | [] => some []
  | j :: rest =>
      match decodeInfo j with
      | some ti => (infoList rest).map fun l => ti :: l
      | none => none

/-- Decode a `TaskInfo` list from a JSON value: an array of objects, or
`null` for the empty list, as `json.Unmarshal` into `[]TaskInfo` behaves. -/
def decodeInfos : GoJson.Json → Option (List TaskInfo)
  | GoJson.Json.null => some []
  | GoJson.Json.arr items => infoList items
  | _ => none

/-- Embedding of `json.Unmarshal` of exported bytes into `[]TaskInfo`: parse
the document, require only whitespace to follow, and decode. -/
def unmarshalTaskInfos (cs : List Char) : Option (List TaskInfo) :=
  match GoJson.parseVal (cs.length + 1) cs with
  | some (j, r) => if GoJson.skipWs r = [] then decodeInfos j else none
  | none => none

end PocketFD

namespace GoJson

/-- String structure eta: rebuilding a string from its characters is the identity. -/
theorem stringMk_data (s : String) : String.mk s.data = s := rfl

/-- Reading back the hexadecimal digit the renderer emitted. -/
theorem hexVal_hexDigitChar : ∀ k : Nat, k < 16 → hexVal (hexDigitChar k) = some k := by
  decide

/-- Consuming a `\u` escape the renderer emitted recovers its code point. -/
theorem readStr_uEscape (n : Nat) (hn : n < 65536) (acc rest : List Char) :
    readStr acc (uEscape n ++ rest) = readStr (Char.ofNat n :: acc) rest := by
  have h1 := hexVal_hexDigitChar (n / 4096 % 16) (Nat.mod_lt _ (by omega))
  have h2 := hexVal_hexDigitChar (n / 256 % 16) (Nat.mod_lt _ (by omega))
  have h3 := hexVal_hexDigitChar (n / 16 % 16) (Nat.mod_lt _ (by omega))
  have h4 := hexVal_hexDigitChar (n % 16) (Nat.mod_lt _ (by omega))
  have harith :
      ((n / 4096 % 16 * 16 + n / 256 % 16) * 16 + n / 16 % 16) * 16 + n % 16 = n := by
    omega
  simp [uEscape, readStr, h1, h2, h3, h4, harith]

/-- Consuming one escaped character undoes the escape. -/
theorem readStr_escChar (c : Char) (acc rest : List Char) :
    readStr acc (escChar c ++ rest) = readStr (c :: acc) rest := by
  by_cases h1 : c = '"'
  · subst h1; rfl
  · by_cases h2 : c = '\\'
    · subst h2; simp [escChar]; rfl
    · by_cases h3 : c = '\n'
      · subst h3; simp [escChar]; rfl
      · by_cases h4 : c = '\r'
        · subst h4; simp [escChar]; rfl
        · by_cases h5 : c = '\t'
          · subst h5; simp [escChar]; rfl
          · by_cases h6 : c.toNat < 32
            · rw [escChar]
              simp only [h1, h2, h3, h4, h5, if_false, if_pos h6]
              rw [readStr_uEscape c.toNat (by omega), Char.ofNat_toNat]
            · by_cases h7 : c = '<' ∨ c = '>' ∨ c = '&'
              · rw [escChar]
                simp only [h1, h2, h3, h4, h5, h6, if_false, if_pos h7]
                rw [readStr_uEscape c.toNat
                    (by rcases h7 with h | h | h <;> subst h <;> decide),
                  Char.ofNat_toNat]
              · by_cases h8 : c.toNat = 8232 ∨ c.toNat = 8233
                · rw [escChar]
                  simp only [h1, h2, h3, h4, h5, h6, h7, if_false, if_pos h8]
                  rw [readStr_uEscape c.toNat (by omega), Char.ofNat_toNat]
                · rw [escChar]
                  simp only [h1, h2, h3, h4, h5, h6, h7, h8, if_false]
                  rw [List.cons_append, readStr.eq_def]
                  simp [h1, h2, h6]

/-- Consuming an escaped character run up to the closing quote recovers it. -/
theorem readStr_escList :
    ∀ (s acc rest : List Char),
      readStr acc (escList s ++ '"' :: rest) = some (acc.reverse ++ s, rest)
  | [], acc, rest => by simp [escList, readStr]
  | c :: s, acc, rest => by
      rw [escList, List.append_assoc, readStr_escChar, readStr_escList s (c :: acc) rest]
      simp

/-- Space runs are inter-token whitespace. -/
theorem skipWs_replicate (n : Nat) (cs : List Char) :
    skipWs (List.replicate n ' ' ++ cs) = skipWs cs := by
  induction n with
  | zero => simp
  | succ m ih => simpa [skipWs, isWsChar] using ih

/-- The renderer's line breaks and indentation are inter-token whitespace. -/
theorem skipWs_nlInd (n : Nat) (cs : List Char) :
    skipWs (nlInd n ++ cs) = skipWs cs := by
  rw [nlInd, List.cons_append, skipWs]
  simpa [isWsChar] using skipWs_replicate n cs

/-- A non-whitespace head stops the skipping. -/
theorem skipWs_cons (c : Char) (cs : List Char) (h : isWsChar c = false) :
    skipWs (c :: cs) = c :: cs := by
  simp [skipWs, h]

/-- The parser only looks at its input through `skipWs`. -/
theorem parseVal_congr (fuel : Nat) (cs1 cs2 : List Char)
    (h : skipWs cs1 = skipWs cs2) : parseVal fuel cs1 = parseVal fuel cs2 := by
  cases fuel with
  | zero => rfl
  | succ f => simp only [parseVal]; rw [h]

/-- The member parser only looks at its input through `skipWs`. -/
theorem parseFields_congr (fuel : Nat) (cs1 cs2 : List Char)
    (h : skipWs cs1 = skipWs cs2) : parseFields fuel cs1 = parseFields fuel cs2 := by
  cases fuel with
  | zero => rfl
  | succ f => simp only [parseFields]; rw [h]

/-- The element parser only looks at its input through `skipWs`. -/
theorem parseItems_congr (fuel : Nat) (cs1 cs2 : List Char)
    (h : skipWs cs1 = skipWs cs2) : parseItems fuel cs1 = parseItems fuel cs2 := by
  cases fuel with
  | zero => rfl
  | succ f => simp only [parseItems]; rw [parseVal_congr f cs1 cs2 h]

/-- Every rendered value begins with a non-whitespace character that closes
nothing: not `]`, not `}`, not a comma. -/
theorem renderVal_head (d : Nat) (j : Json) :
    ∃ c t, renderVal d j = c :: t ∧ isWsChar c = false ∧
      c ≠ ']' ∧ c ≠ rbraceC ∧ c ≠ ',' := by
  cases j with
  | null =>
      exact ⟨'n', ['u', 'l', 'l'], by simp only [renderVal],
        by decide, by decide, by decide, by decide⟩
  | bool b =>
      cases b with
      | true =>
          exact ⟨'t', ['r', 'u', 'e'], by simp only [renderVal],
            by decide, by decide, by decide, by decide⟩
      | false =>
          exact ⟨'f', ['a', 'l', 's', 'e'], by simp only [renderVal],
            by decide, by decide, by decide, by decide⟩
  | str s =>
      exact ⟨'"', escList s.data ++ ['"'], by simp only [renderVal],
        by decide, by decide, by decide, by decide⟩
  | arr items =>
      cases items with
      | nil =>
          exact ⟨'[', [']'], by simp only [renderVal],
            by decide, by decide, by decide, by decide⟩
      | cons e es =>
          exact ⟨'[', renderElems (d + 1) e es ++ (nlInd (2 * d) ++ [']']),
            by simp only [renderVal], by decide, by decide, by decide, by decide⟩
  | obj fields =>
      cases fields with
      | nil =>
          exact ⟨lbraceC, [rbraceC], by simp only [renderVal],
            by decide, by decide, by decide, by decide⟩
      | cons f fs =>
          exact ⟨lbraceC, renderFields (d + 1) f fs ++ (nlInd (2 * d) ++ [rbraceC]),
            by simp only [renderVal], by decide, by decide, by decide, by decide⟩

/-- Rendered values pass through `skipWs` untouched. -/
theorem skipWs_renderVal (d : Nat) (j : Json) (x : List Char) :
    skipWs (renderVal d j ++ x) = renderVal d j ++ x := by
  obtain ⟨c, t, hj, hws, _, _, _⟩ := renderVal_head d j
  rw [hj, List.cons_append, skipWs_cons _ _ hws]

/-- One-step unfolding of the parser at a quote (definitional). -/
theorem parseVal_quote (f : Nat) (r : List Char) :
    parseVal (f + 1) ('"' :: r) =
      (match readStr [] r with
       | some (s, r1) => some (Json.str (String.mk s), r1)
       | none => none) := rfl

/-- One-step unfolding of the parser at an opening bracket (definitional). -/
theorem parseVal_lbrack (f : Nat) (r : List Char) :
    parseVal (f + 1) ('[' :: r) =
      (match skipWs r with
       | [] => none
       | d :: r1 =>
           if d = ']' then some (Json.arr [], r1)
           else
             match parseItems f (d :: r1) with
             | some (es, r2) => some (Json.arr es, r2)
             | none => none) := rfl

/-- One-step unfolding of the parser at an opening brace (definitional). -/
theorem parseVal_lbrace (f : Nat) (r : List Char) :
    parseVal (f + 1) (lbraceC :: r) =
      (match skipWs r with
       | [] => none
       | d :: r1 =>
           if d = rbraceC then some (Json.obj [], r1)
           else
             match parseFields f (d :: r1) with
             | some (fs, r2) => some (Json.obj fs, r2)
             | none => none) := rfl

/-- One-step unfolding of the element parser (definitional). -/
theorem parseItems_step (f : Nat) (cs : List Char) :
    parseItems (f + 1) cs =
      (match parseVal f cs with
       | none => none
       | some (v, r) =>
           match skipWs r with
           | ',' :: r1 =>
               (match parseItems f r1 with
                | some (vs, r2) => some (v :: vs, r2)
                | none => none)
           | ']' :: r1 => some ([v], r1)
           | _ => none) := rfl

/-- One-step unfolding of the member parser (definitional). -/
theorem parseFields_step (f : Nat) (cs : List Char) :
    parseFields (f + 1) cs =
      (match skipWs cs with
       | '"' :: r =>
           (match readStr [] r with
            | none => none
            | some (k, r1) =>
                match skipWs r1 with
                | ':' :: r2 =>
                    (match parseVal f r2 with
                     | none => none
                     | some (v, r3) =>
                         match skipWs r3 with
                         | ',' :: r4 =>
                             (match parseFields f r4 with
                              | some (fs, r5) => some ((String.mk k, v) :: fs, r5)
                              | none => none)
                         | d :: r4 =>
                             if d = rbraceC then some ([(String.mk k, v)], r4) else none
                         | [] => none)
                | _ => none)
       | _ => none) := rfl


/-- Skipping whitespace ignores a leading space. -/
theorem skipWs_space (cs : List Char) : skipWs (' ' :: cs) = skipWs cs := by
  simp [skipWs, isWsChar]

/-- One-step unfolding of the member parser at a key's quote. -/
theorem parseFields_quote (f : Nat) (r : List Char) :
    parseFields (f + 1) ('"' :: r) =
      (match readStr [] r with
       | none => none
       | some (k, r1) =>
           match skipWs r1 with
           | ':' :: r2 =>
               (match parseVal f r2 with
                | none => none
                | some (v, r3) =>
                    match skipWs r3 with
                    | ',' :: r4 =>
                        (match parseFields f r4 with
                         | some (fs, r5) => some ((String.mk k, v) :: fs, r5)
                         | none => none)
                    | d :: r4 =>
                        if d = rbraceC then some ([(String.mk k, v)], r4) else none
                    | [] => none)
           | _ => none) := by
  rw [parseFields_step, skipWs_cons '"' _ (by decide)]
  rfl

mutual

/-- Parsing a rendered value (at any depth, with enough fuel) recovers it
and leaves the remainder untouched. -/
theorem rtVal : ∀ (j : Json) (d fuel : Nat) (rest : List Char),
    (renderVal d j).length < fuel →
    parseVal fuel (renderVal d j ++ rest) = some (j, rest)
  | .null, d, fuel, rest, hf => by
      have hr : renderVal d .null = ['n', 'u', 'l', 'l'] := by
        simp only [renderVal]
      rw [hr] at hf ⊢
      match fuel, hf with
      | f + 1, _ => rfl
  | .bool true, d, fuel, rest, hf => by
      have hr : renderVal d (.bool true) = ['t', 'r', 'u', 'e'] := by
        simp only [renderVal]
      rw [hr] at hf ⊢
      match fuel, hf with
      | f + 1, _ => rfl
  | .bool false, d, fuel, rest, hf => by
      have hr : renderVal d (.bool false) = ['f', 'a', 'l', 's', 'e'] := by
        simp only [renderVal]
      rw [hr] at hf ⊢
      match fuel, hf with
      | f + 1, _ => rfl
  | .str s, d, fuel, rest, hf => by
      match fuel, hf with
      | f + 1, _ =>
        have harg : renderVal d (.str s) ++ rest
            = '"' :: (escList s.data ++ ('"' :: rest)) := by
          simp [renderVal]
        rw [harg, parseVal_quote, readStr_escList s.data [] rest]
        simp [stringMk_data]
  | .arr [], d, fuel, rest, hf => by
      match fuel, hf with
      | f + 1, _ =>
        have harg : renderVal d (.arr []) ++ rest = '[' :: (']' :: rest) := by
          simp [renderVal]
        rw [harg, parseVal_lbrack, skipWs_cons ']' rest (by decide)]
        simp
  | .arr (e :: es), d, fuel, rest, hf => by
      match fuel, hf with
      | f + 1, hf =>
        have harg : renderVal d (.arr (e :: es)) ++ rest
            = '[' :: (renderElems (d + 1) e es ++ (nlInd (2 * d) ++ (']' :: rest))) := by
          simp [renderVal]
        have hskip : skipWs (renderElems (d + 1) e es ++ (nlInd (2 * d) ++ (']' :: rest)))
            = renderVal (d + 1) e ++
                (renderSep (d + 1) es ++ (nlInd (2 * d) ++ (']' :: rest))) := by
          simp only [renderElems, List.append_assoc]
          rw [skipWs_nlInd, skipWs_renderVal]
        have hlen : (renderVal (d + 1) e).length + (renderSep (d + 1) es).length + 1 < f := by
          simp only [renderVal, renderElems, nlInd, List.length_cons, List.length_append,
            List.length_replicate] at hf
          omega
        have hitems := rtItems es e (d + 1) (2 * d) f rest hlen
        obtain ⟨c, t, hct, hws, hbr, _, _⟩ := renderVal_head (d + 1) e
        have hcons : renderVal (d + 1) e ++
              (renderSep (d + 1) es ++ (nlInd (2 * d) ++ (']' :: rest)))
            = c :: (t ++ (renderSep (d + 1) es ++ (nlInd (2 * d) ++ (']' :: rest)))) := by
          rw [hct]; simp
        rw [harg, parseVal_lbrack, hskip, hcons]
        simp only [hbr, if_false]
        rw [← hcons, hitems]
  | .obj [], d, fuel, rest, hf => by
      match fuel, hf with
      | f + 1, _ =>
        have harg : renderVal d (.obj []) ++ rest = lbraceC :: (rbraceC :: rest) := by
          simp [renderVal]
        rw [harg, parseVal_lbrace, skipWs_cons rbraceC rest (by decide)]
        simp
  | .obj ((k, v) :: fs), d, fuel, rest, hf => by
      match fuel, hf with
      | f + 1, hf =>
        have harg : renderVal d (.obj ((k, v) :: fs)) ++ rest
            = lbraceC ::
                (renderFields (d + 1) (k, v) fs
                  ++ (nlInd (2 * d) ++ (rbraceC :: rest))) := by
          simp [renderVal]
        have hskip : skipWs (renderFields (d + 1) (k, v) fs
              ++ (nlInd (2 * d) ++ (rbraceC :: rest)))
            = '"' :: (escList k.data ++ ('"' :: (':' :: (' ' ::
                (renderVal (d + 1) v ++ (renderFieldsSep (d + 1) fs
                  ++ (nlInd (2 * d) ++ (rbraceC :: rest)))))))) := by
          simp only [renderFields, List.append_assoc, List.cons_append]
          rw [skipWs_nlInd, skipWs_cons '"' _ (by decide)]
        have hlen : (renderVal (d + 1) v).length
            + (renderFieldsSep (d + 1) fs).length + 1 < f := by
          simp only [renderVal, renderFields, nlInd, List.length_cons, List.length_append,
            List.length_replicate] at hf
          omega
        have hfields := rtFields fs k v (d + 1) (2 * d) f rest hlen
        rw [harg, parseVal_lbrace, hskip]
        have hne : ('"' : Char) ≠ rbraceC := by decide
        simp only [hne, if_false]
        rw [hfields]
  termination_by j _ _ _ _ => sizeOf j

/-- Parsing rendered array elements followed by the closing bracket recovers
the element list. -/
theorem rtItems : ∀ (es : List Json) (e : Json) (d m fuel : Nat) (rest : List Char),
    (renderVal d e).length + (renderSep d es).length + 1 < fuel →
    parseItems fuel
        (renderVal d e ++ (renderSep d es ++ (nlInd m ++ (']' :: rest))))
      = some (e :: es, rest)
  | [], e, d, m, fuel, rest, hf => by
      match fuel, hf with
      | f + 1, hf =>
        have hv := rtVal e d f (renderSep d [] ++ (nlInd m ++ (']' :: rest))) (by omega)
        have hsep : renderSep d ([] : List Json) = [] := by simp [renderSep]
        have h1 : skipWs (nlInd m ++ (']' :: rest)) = ']' :: rest := by
          rw [skipWs_nlInd, skipWs_cons ']' rest (by decide)]
        rw [parseItems_step, hv, hsep, List.nil_append]
        simp [h1]
  | x :: xs, e, d, m, fuel, rest, hf => by
      match fuel, hf with
      | f + 1, hf =>
        have hv := rtVal e d f (renderSep d (x :: xs) ++ (nlInd m ++ (']' :: rest)))
          (by omega)
        have hsep : renderSep d (x :: xs)
            = ',' :: (nlInd (2 * d) ++ (renderVal d x ++ renderSep d xs)) := by
          simp [renderSep]
        have hlen2 : (renderVal d x).length + (renderSep d xs).length + 1 < f := by
          rw [hsep] at hf
          simp only [List.length_cons, List.length_append] at hf
          omega
        have hih := rtItems xs x d m f rest hlen2
        have hcongr : parseItems f (nlInd (2 * d)
              ++ (renderVal d x ++ (renderSep d xs ++ (nlInd m ++ (']' :: rest)))))
            = parseItems f
                (renderVal d x ++ (renderSep d xs ++ (nlInd m ++ (']' :: rest)))) :=
          parseItems_congr _ _ _ (skipWs_nlInd _ _)
        have h1 : skipWs (',' :: (nlInd (2 * d)
              ++ (renderVal d x ++ (renderSep d xs ++ (nlInd m ++ (']' :: rest))))))
            = ',' :: (nlInd (2 * d)
              ++ (renderVal d x ++ (renderSep d xs ++ (nlInd m ++ (']' :: rest)))))  :=
          skipWs_cons ',' _ (by decide)
        rw [parseItems_step, hv, hsep, List.cons_append]
        simp [h1, hcongr, hih]
  termination_by es e _ _ _ _ _ => sizeOf e + sizeOf es + 1

/-- Parsing rendered object members followed by the closing brace recovers
the member list. -/
theorem rtFields : ∀ (fs : List (String × Json)) (k : String) (v : Json)
      (d m fuel : Nat) (rest : List Char),
    (renderVal d v).length + (renderFieldsSep d fs).length + 1 < fuel →
    parseFields fuel
        ('"' :: (escList k.data ++ ('"' :: (':' :: (' ' ::
          (renderVal d v ++ (renderFieldsSep d fs ++ (nlInd m ++ (rbraceC :: rest)))))))))
      = some ((k, v) :: fs, rest)
  | [], k, v, d, m, fuel, rest, hf => by
      match fuel, hf with
      | f + 1, hf =>
        have hsep : renderFieldsSep d ([] : List (String × Json)) = [] := by
          simp [renderFieldsSep]
        have hpv : parseVal f (' ' :: (renderVal d v ++ (nlInd m ++ (rbraceC :: rest))))
            = some (v, nlInd m ++ (rbraceC :: rest)) :=
          (parseVal_congr _ _ _ (skipWs_space _)).trans (rtVal v d f _ (by omega))
        have hcol : skipWs (':' :: (' ' :: (renderVal d v
              ++ (nlInd m ++ (rbraceC :: rest)))))
            = ':' :: (' ' :: (renderVal d v ++ (nlInd m ++ (rbraceC :: rest)))) :=
          skipWs_cons ':' _ (by decide)
        have hend : skipWs (nlInd m ++ (rbraceC :: rest)) = rbraceC :: rest := by
          rw [skipWs_nlInd, skipWs_cons rbraceC rest (by decide)]
        have hne : rbraceC ≠ ',' := by decide
        have hself : rbraceC = rbraceC := rfl
        rw [parseFields_quote, readStr_escList]
        simp [hsep, hpv, hcol, hend, hne, hself, stringMk_data]
  | (k2, v2) :: fs2, k, v, d, m, fuel, rest, hf => by
      match fuel, hf with
      | f + 1, hf =>
        have hsep : renderFieldsSep d ((k2, v2) :: fs2)
            = ',' :: (nlInd (2 * d) ++
                ('"' :: (escList k2.data ++ ('"' :: (':' :: (' ' ::
                  (renderVal d v2 ++ renderFieldsSep d fs2))))))) := by
          simp [renderFieldsSep]
        have hlen2 : (renderVal d v2).length + (renderFieldsSep d fs2).length + 1 < f := by
          rw [hsep] at hf
          simp only [List.length_cons, List.length_append] at hf
          omega
        have hih := rtFields fs2 k2 v2 d m f rest hlen2
        have hpv : parseVal f (' ' :: (renderVal d v
              ++ (renderFieldsSep d ((k2, v2) :: fs2)
                ++ (nlInd m ++ (rbraceC :: rest)))))
            = some (v, renderFieldsSep d ((k2, v2) :: fs2)
                ++ (nlInd m ++ (rbraceC :: rest))) :=
          (parseVal_congr _ _ _ (skipWs_space _)).trans (rtVal v d f _ (by omega))
        have hcol : skipWs (':' :: (' ' :: (renderVal d v
              ++ (renderFieldsSep d ((k2, v2) :: fs2)
                ++ (nlInd m ++ (rbraceC :: rest))))))
            = ':' :: (' ' :: (renderVal d v
                ++ (renderFieldsSep d ((k2, v2) :: fs2)
                  ++ (nlInd m ++ (rbraceC :: rest))))) :=
          skipWs_cons ':' _ (by decide)
        have hmid : skipWs (renderFieldsSep d ((k2, v2) :: fs2)
              ++ (nlInd m ++ (rbraceC :: rest)))
            = ',' :: ((nlInd (2 * d) ++
                ('"' :: (escList k2.data ++ ('"' :: (':' :: (' ' ::
                  (renderVal d v2 ++ renderFieldsSep d fs2)))))))
              ++ (nlInd m ++ (rbraceC :: rest))) := by
          rw [hsep, List.cons_append]
          exact skipWs_cons ',' _ (by decide)
        have hihs : parseFields f (nlInd (2 * d) ++
              ('"' :: (escList k2.data ++ ('"' :: (':' :: (' ' ::
                (renderVal d v2 ++ (renderFieldsSep d fs2
                  ++ (nlInd m ++ (rbraceC :: rest))))))))))
            = some ((k2, v2) :: fs2, rest) :=
          (parseFields_congr _ _ _ (skipWs_nlInd _ _)).trans hih
        rw [parseFields_quote, readStr_escList]
        simp [hpv, hcol, hmid, hihs, stringMk_data]
  termination_by fs _ v _ _ _ _ _ => sizeOf v + sizeOf fs + 1

end

end GoJson

namespace PocketFD

/-- Decoding an encoded string array recovers it. -/
theorem strList_map : ∀ ps : List String, strList (ps.map GoJson.Json.str) = some ps
  | [] => rfl
  | p :: ps => by simp [strList, strList_map ps]

/-- Decoding the object encoded from a `TaskInfo` recovers it exactly. -/
theorem decodeInfo_encode (ti : TaskInfo) : decodeInfo (encodeInfo ti) = some ti := by
  obtain ⟨n, u, ps, hd⟩ := ti
  by_cases hps : ps = [] <;> cases hd <;>
    simp [encodeInfo, decodeInfo, decodeFields, emptyInfo, hps, strList_map]

/-- Decoding the array encoded from a `TaskInfo` list recovers it. -/
theorem infoList_map : ∀ l : List TaskInfo, infoList (l.map encodeInfo) = some l
  | [] => rfl
  | ti :: l => by simp [infoList, decodeInfo_encode, infoList_map l]

/-- Unmarshalling the indented marshalled form of a `TaskInfo` list is the
identity: the parse consumes the whole document and decoding inverts the
field encoding. -/
theorem unmarshal_marshal (l : List TaskInfo) :
    unmarshalTaskInfos (GoJson.renderVal 0 (encodeInfos l)) = some l := by
  have hp := GoJson.rtVal (encodeInfos l) 0
    ((GoJson.renderVal 0 (encodeInfos l)).length + 1) [] (by omega)
  rw [List.append_nil] at hp
  rw [unmarshalTaskInfos, hp]
  simp only [GoJson.skipWs, if_pos rfl]
  rw [encodeInfos]
  simp [decodeInfos, infoList_map]

end PocketFD

/-- C9: parsing the JSON bytes produced by `ExportJSON` back into a
`TaskInfo` list yields exactly the list returned by `CollectTasks`: every
name, usage, path list and hidden flag is preserved — a lossless
export-then-parse round trip, for every tree and path mapping. -/
theorem c9_export_parse_roundtrip (pm : String → Option (List String))
    (r : PocketFD.Runnable) :
    PocketFD.unmarshalTaskInfos (PocketFD.ExportJSON pm r)
      = some (PocketFD.CollectTasks pm r) :=
  PocketFD.unmarshal_marshal (PocketFD.CollectTasks pm r)
